import Mathlib

/-!
Verification development for the grid path-planning module (`planning.py`):
the A* search (`astar`), path reconstruction (`reconstruct_path`), the
obstacle projector (`add_obstacle` / `get_goal` / `rotate_point`) and one
iteration of the replanning behavior loop (`cozmoBehavior`).

Cells are integer coordinate pairs.  Edge weights, cumulative costs and
heuristic values are rationals (the Python floats), so that the search is
executable inside Lean.  Geometric projection uses real trigonometry.
Python dictionaries are modelled as association lists where insertion conses
a binding that shadows older ones, and the `PriorityQueue` is modelled as a
multiset of `(priority, cell)` entries from which the lexicographically
least entry is removed, exactly the behavior of `heapq` on tuples.
The unbounded `while` loops are modelled with explicit fuel: running out of
fuel returns a distinguished `"OutOfFuel"` outcome (resp. `none`), which
represents an execution that is still running, not an error raised by the
Python code.
-/

abbrev Cell := Int × Int

/-- Association-list lookup with Python `dict` semantics: the most recently
added binding (the head-most one) wins. -/
def alookup {β : Type} : List (Cell × β) → Cell → Option β
  | [], _ => none
  | (k, v) :: t, c => if k = c then some v else alookup t c

/-- Lexicographic comparison of cells, as Python compares coordinate tuples. -/
def cellLe (a b : Cell) : Bool :=
  decide (a.1 < b.1) || (decide (a.1 = b.1) && decide (a.2 ≤ b.2))

/-- Lexicographic comparison of `(priority, cell)` entries, as Python's
`PriorityQueue` compares the tuples it stores. -/
def entryLe (a b : ℚ × Cell) : Bool :=
  decide (a.1 < b.1) || (decide (a.1 = b.1) && cellLe a.2 b.2)

/-- The least entry of the frontier, i.e. the one `frontier.get()` returns. -/
def minEntry : List (ℚ × Cell) → Option (ℚ × Cell)
  | [] => none
  | e :: t =>
    match minEntry t with
    | none => some e
    | some m => if entryLe e m then some e else some m

/-- The transient search state owned by one `astar` invocation: the priority
frontier, the predecessor map `came_from`, the best-known cumulative cost map
`cost_so_far`, and the diagnostic visited trace. -/
structure AState where
  frontier : List (ℚ × Cell)
  came_from : List (Cell × Option Cell)
  cost_so_far : List (Cell × ℚ)
  visited : List Cell
deriving Repr, DecidableEq

/-- The state after the initialisation lines of `astar`:
`frontier.put((0, start))`, `came_from[start] = None`, `cost_so_far[start] = 0`. -/
def initState (start : Cell) : AState :=
  { frontier := [(0, start)]
    came_from := [(start, none)]
    cost_so_far := [(start, 0)]
    visited := [] }

/-- The body of the `for next in grid.getNeighbors(current)` loop for one
neighbor: relax it, and on strict improvement (or first discovery) record the
new cost, push it with priority `new_cost + heuristic(next, goal)` and set its
predecessor.  A missing `cost_so_far[current]` is Python's `KeyError`. -/
def relaxOne (h : Cell → Cell → ℚ) (goal current : Cell) (s : AState)
    (nb : Cell × ℚ) : Except String AState :=
  match alookup s.cost_so_far current with
  | none => .error "KeyError"
  | some cc =>
    let next_pose := nb.1
    let next_weight := nb.2
    let new_cost := cc + next_weight
    let push : AState :=
      { s with
        cost_so_far := (next_pose, new_cost) :: s.cost_so_far
        frontier := (new_cost + h next_pose goal, next_pose) :: s.frontier
        came_from := (next_pose, some current) :: s.came_from }
    match alookup s.cost_so_far next_pose with
    | none => .ok push
    | some old => if new_cost < old then .ok push else .ok s

/-- The whole neighbor loop of one `astar` iteration. -/
def relaxList (h : Cell → Cell → ℚ) (goal current : Cell) :
    List (Cell × ℚ) → AState → Except String AState
  | [], s => .ok s
  | nb :: rest, s =>
    match relaxOne h goal current s nb with
    | .ok s1 => relaxList h goal current rest s1
    | .error e => .error e

/-- The `while current != start` loop of `reconstruct_path`, with fuel.
`none` means the fuel ran out with the loop still running; `some (.error _)`
is a raised `KeyError`; `some (.ok p)` is the returned path.  The accumulator
holds the cells appended so far, in reversed (final) order, so consing
`start` at the end produces exactly `path.reverse()` of the Python code. -/
def reconstructGo (came_from : List (Cell × Option Cell)) (start : Cell) :
    Nat → Cell → List Cell → Option (Except String (List Cell))
  | 0, _, _ => none
  | fuel + 1, current, acc =>
    if current = start then some (.ok (start :: acc))
    else
      match alookup came_from current with
      | none => some (.error "KeyError")
      | some none => some (.error "KeyError")
      | some (some prev) => reconstructGo came_from start fuel prev (current :: acc)

/-- `reconstruct_path(came_from, start, goal)` of the source, with fuel. -/
def reconstruct_path (came_from : List (Cell × Option Cell))
    (start goal : Cell) (fuel : Nat) : Option (Except String (List Cell)) :=
  reconstructGo came_from start fuel goal []

/-- The `while not frontier.empty()` loop of `astar`.  One fuel unit is one
iteration.  When the popped cell is the goal the path is reconstructed; the
reconstruction is given fuel `|came_from| + 1`, which the invariants below
show is always sufficient, so `"ReconstructFailure"` never occurs on states
reachable from an `astar` initialisation. -/
def astarLoop (nbrs : Cell → List (Cell × ℚ)) (start : Cell)
    (h : Cell → Cell → ℚ) (goal : Cell) :
    Nat → AState → Except String (List Cell × AState)
  | 0, _ => .error "OutOfFuel"
  | fuel + 1, s =>
    match minEntry s.frontier with
    | none => .error "No Path Found"
    | some m =>
      let s1 : AState :=
        { s with frontier := s.frontier.erase m, visited := m.2 :: s.visited }
      if m.2 = goal then
        match reconstruct_path s1.came_from start goal (s1.came_from.length + 1) with
        | some (.ok p) => .ok (p, s1)
        | _ => .error "ReconstructFailure"
      else
        match relaxList h goal m.2 (nbrs m.2) s1 with
        | .ok s2 => astarLoop nbrs start h goal fuel s2
        | .error e => .error e

/-- The narrow grid interface `astar` consumes: `getStart`, `getGoals` and
`getNeighbors`. -/
structure CozGrid where
  getStart : Cell
  getGoals : List Cell
  getNeighbors : Cell → List (Cell × ℚ)

/-- `astar(grid, heuristic)`: reads `grid.getStart()` and `grid.getGoals()[0]`
(an empty goal list is Python's `IndexError`), then runs the search loop.
The returned pair is the path written back by `grid.setPath(path)` together
with the final search state. -/
def astar (g : CozGrid) (h : Cell → Cell → ℚ) (fuel : Nat) :
    Except String (List Cell × AState) :=
  match g.getGoals with
  | [] => .error "IndexError"
  | goal :: _ => astarLoop g.getNeighbors g.getStart h goal fuel (initState g.getStart)

/-- The observable result of `astar`: the path stored into the grid. -/
def astarPath (g : CozGrid) (h : Cell → Cell → ℚ) (fuel : Nat) :
    Except String (List Cell) :=
  match astar g h fuel with
  | .ok (p, _) => .ok p
  | .error e => .error e

/-- A walk through the neighbor structure: `CWalk nbrs a l z q` says `l` is a
cell sequence from `a` to `z` whose consecutive cells are joined by edges of
`nbrs` and whose edge weights sum to `q`. -/
inductive CWalk (nbrs : Cell → List (Cell × ℚ)) : Cell → List Cell → Cell → ℚ → Prop
  | nil (c : Cell) : CWalk nbrs c [c] c 0
  | cons {a b z : Cell} {w q : ℚ} {l : List Cell} :
      (b, w) ∈ nbrs a → CWalk nbrs b l z q → CWalk nbrs a (a :: l) z (w + q)

/-! ## Geometric projection (`rotate_point`, `add_obstacle`, `get_goal`) -/

/-- Python `range(start, stop, step)` for a positive step: the length is
`max 0 ((stop - start + step - 1) // step)` with floor division. -/
def pyRange (start stop step : Int) : List Int :=
  (List.range ((stop - start + step - 1).fdiv step).toNat).map
    (fun i => start + step * (i : Int))

/-- `rotate_point(x, y, heading_deg)`: standard 2-D rotation after converting
degrees to radians (`math.radians`). -/
noncomputable def rotate_point (x y heading_deg : ℝ) : ℝ × ℝ :=
  let c := Real.cos (heading_deg * Real.pi / 180)
  let s := Real.sin (heading_deg * Real.pi / 180)
  (x * c + y * (-s), x * s + y * c)

/-- The cells `add_obstacle` passes to `grid.addObstacle`, in iteration
order: offsets across the fixed `cube_size = 50` footprint in steps of
`grid.scale`, rotated by the object's heading, translated by its position and
divided by the scale. -/
noncomputable def add_obstacle_cells (scale : Int) (poseX poseY headingDeg : ℝ) :
    List (ℝ × ℝ) :=
  (pyRange (-50) (50 + 1) scale).flatMap (fun x =>
    (pyRange (-50) (50 + 1) scale).map (fun y =>
      let r := rotate_point (x : ℝ) (y : ℝ) headingDeg
      ((poseX + r.1) / (scale : ℝ), (poseY + r.2) / (scale : ℝ))))

/-- The world-model state the behavior loop manipulates: the grid scale, the
goal cells, the obstacle cells registered so far and the current path. -/
structure GridW where
  scale : Int
  goals : List (Int × Int)
  obstacles : List (ℝ × ℝ)
  path : List (Int × Int)

/-- An observed light cube: identity, position and heading. -/
structure Cube where
  cube_id : Nat
  poseX : ℝ
  poseY : ℝ
  headingDeg : ℝ

/-- The distinguished goal-marker identity (`LightCube1Id`). -/
def LightCube1Id : Nat := 1

/-- `add_obstacle(grid, cube)`: registers the cube's full footprint. -/
noncomputable def add_obstacle (g : GridW) (c : Cube) : GridW :=
  { g with obstacles := g.obstacles ++ add_obstacle_cells g.scale c.poseX c.poseY c.headingDeg }

/-- `get_goal(grid, cube)`: projects the single offset `(0, -cube_size)`
behind the cube's center and — as the source is written — registers it via
`grid.addObstacle`; the grid's goal cells are not touched. -/
noncomputable def get_goal (g : GridW) (c : Cube) : GridW :=
  let r := rotate_point 0 (-50) c.headingDeg
  { g with obstacles := g.obstacles ++
      [((c.poseX + r.1) / (g.scale : ℝ), (c.poseY + r.2) / (g.scale : ℝ))] }

/-- The grid mutations performed when a cube is observed: always
`add_obstacle`, and additionally `get_goal` when it is the goal marker. -/
noncomputable def registerCube (g : GridW) (c : Cube) : GridW :=
  if c.cube_id = LightCube1Id then get_goal (add_obstacle g c) c else add_obstacle g c

/-- Commands issued to the robot during one loop iteration. -/
inductive RCmd where
  | sayText (msg : String)
  | setLights (blue : Bool)
  | turnInPlace (deg : Int)
  | goToPose (x y : Int) (angleZdeg : ℝ)

/-- The loop-local state of `cozmoBehavior`. -/
structure BehState where
  grid : GridW
  found_goal : Bool
  path_index : Nat

/-- Outcome of one iteration of the `while not stopevent.is_set()` loop:
continue with a new state, exit via `break` (arrived), or raise. -/
inductive BStepResult where
  | cont (st : BehState) (cmds : List RCmd)
  | arrived (cmds : List RCmd)
  | crashed (cmds : List RCmd) (msg : String)

/-- The final lines of the loop body: read waypoints `path[path_index]` and
`path[path_index + 1]`, compute the displacement — the source takes
coordinate `[0]` of both waypoints and assigns the same expression to both
`x` and `y` — and issue the blocking `go_to_pose`.  `path_index` is not
changed.  An out-of-range index is Python's `IndexError`. -/
noncomputable def moveTail (st : BehState) (cmds : List RCmd) : BStepResult :=
  match st.grid.path[st.path_index]?, st.grid.path[st.path_index + 1]? with
  | some cur, some nxt =>
    let x : Int := (nxt.1 - cur.1) * st.grid.scale
    let y : Int := (nxt.1 - cur.1) * st.grid.scale
    let degree : ℝ := if x = 0 then 0 else Real.arctan ((y : ℝ) / (x : ℝ))
    .cont st (cmds ++ [RCmd.goToPose x y degree])
  | _, _ => .crashed cmds "IndexError"

/-- The path-end check of the loop body.  When the index has reached the end:
turn in place if the goal has not been confirmed — and then fall through to
the waypoint code, exactly as the source does — or say `Arrived` and break
if it has. -/
noncomputable def afterObstacle (st : BehState) (cmds : List RCmd) : BStepResult :=
  if st.grid.path.length ≤ st.path_index then
    if st.found_goal then .arrived (cmds ++ [RCmd.sayText "Arrived"])
    else moveTail st (cmds ++ [RCmd.turnInPlace 30])
  else moveTail st cmds

/-- One iteration of the `cozmoBehavior` replan loop, parametrized by the
planner `search` (the `astar(grid, heuristic); grid.getPath()` combination)
and by the observation `obs` delivered by `search_cube`.  When a cube is
observed: register its footprint, classify it by identity, replan, and reset
the path index to 0 — then continue into the same iteration's path-end check
and waypoint move. -/
noncomputable def behaviorStep (search : GridW → List (Int × Int))
    (obs : Option Cube) (st : BehState) : BStepResult :=
  match obs with
  | none => afterObstacle st [RCmd.sayText "searching"]
  | some cube =>
    let cmds := [RCmd.sayText "searching", RCmd.sayText "Found a Cube"]
    let idCmds :=
      if cube.cube_id = LightCube1Id then
        [RCmd.setLights true, RCmd.sayText "Found the Goal"]
      else
        [RCmd.setLights false, RCmd.sayText "Found an Obstacle"]
    let g2 := registerCube st.grid cube
    let g3 : GridW := { g2 with path := search g2 }
    let found2 := if cube.cube_id = LightCube1Id then true else st.found_goal
    afterObstacle { grid := g3, found_goal := found2, path_index := 0 }
      (cmds ++ idCmds ++ [RCmd.sayText "Replanning"])

/-! ## Search invariants -/

/-- Cost-map evolution between two states: every recorded cumulative cost
persists and never increases. -/
def CostMono (s t : AState) : Prop :=
  ∀ c v, alookup s.cost_so_far c = some v →
    ∃ v', alookup t.cost_so_far c = some v' ∧ v' ≤ v

/-- The core invariant of the `astar` loop state: recorded costs are
non-negative, the start keeps cost `0` and predecessor `None`, predecessor
links are edges along which recorded costs strictly grow, and every frontier
entry's priority dominates the current cost plus heuristic of its cell
(except the initial `(0, start)` entry, which `astar` pushes with priority
`0` rather than `heuristic(start, goal)`). -/
structure InvCore (nbrs : Cell → List (Cell × ℚ)) (h : Cell → Cell → ℚ)
    (start goal : Cell) (s : AState) : Prop where
  cost_nonneg : ∀ c v, alookup s.cost_so_far c = some v → 0 ≤ v
  cost_start : alookup s.cost_so_far start = some 0
  cf_start : alookup s.came_from start = some none
  cf_none : ∀ c, alookup s.came_from c = some none → c = start
  cost_cf : ∀ c v, alookup s.cost_so_far c = some v → ∃ o, alookup s.came_from c = some o
  cf_edge : ∀ c p, alookup s.came_from c = some (some p) →
    ∃ w vc vp, (c, w) ∈ nbrs p ∧ alookup s.cost_so_far c = some vc ∧
      alookup s.cost_so_far p = some vp ∧ vp + w ≤ vc
  frontier_cost : ∀ pr c, (pr, c) ∈ s.frontier →
    (∃ v, alookup s.cost_so_far c = some v ∧ v + h c goal ≤ pr) ∨ (pr = 0 ∧ c = start)

/-- A cell with a recorded cost is either relaxed (all its out-edges satisfy
the triangle inequality at the current costs) or open (it has a frontier
entry whose priority is at most its current cost plus heuristic). -/
def OCAt (nbrs : Cell → List (Cell × ℚ)) (h : Cell → Cell → ℚ) (goal : Cell)
    (s : AState) (c : Cell) : Prop :=
  ∀ v, alookup s.cost_so_far c = some v →
    (∀ b w, (b, w) ∈ nbrs c → ∃ vb, alookup s.cost_so_far b = some vb ∧ vb ≤ v + w) ∨
    (∃ pr, (pr, c) ∈ s.frontier ∧ pr ≤ v + h c goal)

/-- The full A* loop invariant. -/
def AInv (nbrs : Cell → List (Cell × ℚ)) (h : Cell → Cell → ℚ)
    (start goal : Cell) (s : AState) : Prop :=
  InvCore nbrs h start goal s ∧ ∀ c, OCAt nbrs h goal s c

/-- What one neighbor relaxation step guarantees, relative to the popped cell
`cur` whose recorded cost is `vstar`. -/
structure RelaxOut (nbrs : Cell → List (Cell × ℚ)) (h : Cell → Cell → ℚ)
    (start goal cur : Cell) (vstar : ℚ) (nb : Cell × ℚ) (s s' : AState) : Prop where
  core : InvCore nbrs h start goal s'
  cost_cur : alookup s'.cost_so_far cur = some vstar
  ocs : ∀ c, c ≠ cur → OCAt nbrs h goal s' c
  mono : CostMono s s'
  fsub : s.frontier ⊆ s'.frontier
  relaxed : ∃ vb, alookup s'.cost_so_far nb.1 = some vb ∧ vb ≤ vstar + nb.2
  fnew : ∀ e ∈ s'.frontier, e ∈ s.frontier ∨
    ∃ v', alookup s'.cost_so_far e.2 = some v' ∧
      ∀ v, alookup s.cost_so_far e.2 = some v → v' < v

/-- What the whole neighbor loop of one iteration guarantees. -/
structure RelaxListOut (nbrs : Cell → List (Cell × ℚ)) (h : Cell → Cell → ℚ)
    (start goal cur : Cell) (vstar : ℚ) (L : List (Cell × ℚ)) (s s' : AState) : Prop where
  core : InvCore nbrs h start goal s'
  cost_cur : alookup s'.cost_so_far cur = some vstar
  ocs : ∀ c, c ≠ cur → OCAt nbrs h goal s' c
  mono : CostMono s s'
  fsub : s.frontier ⊆ s'.frontier
  post : ∀ b w, (b, w) ∈ L → ∃ vb, alookup s'.cost_so_far b = some vb ∧ vb ≤ vstar + w
  fnew : ∀ e ∈ s'.frontier, e ∈ s.frontier ∨
    ∃ v', alookup s'.cost_so_far e.2 = some v' ∧
      ∀ v, alookup s.cost_so_far e.2 = some v → v' < v

/-- The lightweight invariant used for the unreachable-goal analysis: every
frontier cell is reachable from the start and has a recorded cost. -/
structure ReachInv (nbrs : Cell → List (Cell × ℚ)) (start : Cell) (s : AState) : Prop where
  frontier_reach : ∀ pr c, (pr, c) ∈ s.frontier → ∃ l q, CWalk nbrs start l c q
  frontier_dom : ∀ pr c, (pr, c) ∈ s.frontier → ∃ v, alookup s.cost_so_far c = some v

/-! ## Concrete instances used by the witnesses and counterexamples -/

/-- The constantly-zero heuristic (admissible for non-negative weights). -/
def hZero : Cell → Cell → ℚ := fun _ _ => 0

/-- A two-cell grid with a single unit edge from the start to the goal. -/
def testGrid1 : CozGrid :=
  { getStart := (0, 0), getGoals := [(1, 0)]
    getNeighbors := fun c => if c = (0, 0) then [((1, 0), 1)] else [] }

/-- A grid with no edges at all: the goal is unreachable. -/
def testGrid2 : CozGrid :=
  { getStart := (0, 0), getGoals := [(1, 0)], getNeighbors := fun _ => [] }

/-- The edgeless grid of `testGrid2` with a second goal appended. -/
def testGrid3 : CozGrid :=
  { getStart := (0, 0), getGoals := [(1, 0), (9, 9)]
    getNeighbors := fun c => if c = (0, 0) then [((1, 0), 1)] else [] }

/-- A predecessor map whose chain from `(0,0)` is the self-loop
`(0,0) → (0,0)`: following it never reaches the start. -/
def cycCF : List (Cell × Option Cell) := [((0, 0), some ((0, 0) : Cell))]

/-- A planner stub that keeps the path already stored in the grid. -/
def demoSearch : GridW → List (Int × Int) := fun g => g.path

/-- A planner stub returning the fixed two-waypoint path `[(0,0), (0,1)]`. -/
def c9Search : GridW → List (Int × Int) := fun _ => [(0, 0), (0, 1)]

/-- Behavior state: two-waypoint path `[(0,0), (1,0)]`, index 0. -/
def demoSt3 : BehState :=
  { grid := { scale := 25, goals := [], obstacles := [], path := [(0, 0), (1, 0)] }
    found_goal := false, path_index := 0 }

/-- Behavior state: two-waypoint path `[(0,0), (1,2)]` whose second step
moves one row and two columns, index 0. -/
def demoSt5 : BehState :=
  { grid := { scale := 25, goals := [], obstacles := [], path := [(0, 0), (1, 2)] }
    found_goal := false, path_index := 0 }

/-- A grid world with one goal cell on record. -/
def gw4 : GridW := { scale := 25, goals := [(13, 9)], obstacles := [], path := [] }

/-- The goal-marker cube observed at `(100, 100)` with heading `0°`. -/
def cube4 : Cube := { cube_id := 1, poseX := 100, poseY := 100, headingDeg := 0 }

/-- A generic-obstacle cube (identity ≠ `LightCube1Id`) at `(100, 100)`,
heading `0°`. -/
def c9Cube : Cube := { cube_id := 2, poseX := 100, poseY := 100, headingDeg := 0 }

/-- Behavior state for the obstacle-iteration scenario. -/
def c9St : BehState :=
  { grid := { scale := 25, goals := [], obstacles := [], path := [(0, 0), (1, 0)] }
    found_goal := false, path_index := 0 }

/-- The grid after the obstacle of `c9Cube` is registered. -/
noncomputable def c9Grid2 : GridW := registerCube c9St.grid c9Cube

/-- The loop state right after the replanning triggered by `c9Cube`. -/
noncomputable def c9StAfter : BehState :=
  { grid := { c9Grid2 with path := c9Search c9Grid2 }
    found_goal := false, path_index := 0 }

/-- The commands the obstacle iteration emits, ending in a move command. -/
noncomputable def c9Cmds : List RCmd :=
  [RCmd.sayText "searching", RCmd.sayText "Found a Cube", RCmd.setLights false,
   RCmd.sayText "Found an Obstacle", RCmd.sayText "Replanning", RCmd.goToPose 0 0 0]

/-- The search state after relaxing the single edge of `testGrid1` out of the
start: the goal cell has been discovered with cost 1 and pushed. -/
def relaxDemoState : AState :=
  { frontier := [(0 + 1 + hZero (1, 0) (1, 0), (1, 0)), (0, (0, 0))]
    came_from := [((1, 0), some ((0, 0) : Cell)), ((0, 0), none)]
    cost_so_far := [((1, 0), 0 + 1), ((0, 0), 0)]
    visited := [] }

/-! ## Basic lemmas -/

theorem alookup_cons_self {β : Type} (k : Cell) (v : β) (t : List (Cell × β)) :
    alookup ((k, v) :: t) k = some v := by
  simp [alookup]

theorem alookup_cons_ne {β : Type} {k c : Cell} (v : β) (t : List (Cell × β))
    (hne : k ≠ c) : alookup ((k, v) :: t) c = alookup t c := by
  simp [alookup, hne]

theorem alookup_mem {β : Type} {l : List (Cell × β)} {c : Cell} {v : β}
    (h : alookup l c = some v) : (c, v) ∈ l := by
  induction l with
  | nil => simp [alookup] at h
  | cons e t ih =>
    obtain ⟨k, w⟩ := e
    simp only [alookup] at h
    split at h
    · rename_i hk
      have hv := Option.some.inj h
      subst hk
      subst hv
      exact List.mem_cons_self _ _
    · exact List.mem_cons_of_mem _ (ih h)

theorem entryLe_true_le {a b : ℚ × Cell} (h : entryLe a b = true) : a.1 ≤ b.1 := by
  simp only [entryLe, Bool.or_eq_true, decide_eq_true_eq, Bool.and_eq_true] at h
  rcases h with h | ⟨h, _⟩
  · exact le_of_lt h
  · exact le_of_eq h

theorem entryLe_false_le {a b : ℚ × Cell} (h : entryLe a b = false) : b.1 ≤ a.1 := by
  simp only [entryLe, Bool.or_eq_false_iff, decide_eq_false_iff_not] at h
  exact le_of_not_lt h.1

theorem minEntry_cons_isSome (a : ℚ × Cell) (t : List (ℚ × Cell)) :
    (minEntry (a :: t)).isSome := by
  rw [minEntry]
  cases hmt : minEntry t with
  | none => rfl
  | some m => dsimp only; split <;> rfl

theorem minEntry_none {l : List (ℚ × Cell)} (h : minEntry l = none) : l = [] := by
  cases l with
  | nil => rfl
  | cons a t =>
    have hs := minEntry_cons_isSome a t
    rw [h] at hs
    simp at hs

theorem minEntry_mem {l : List (ℚ × Cell)} {m : ℚ × Cell}
    (h : minEntry l = some m) : m ∈ l := by
  induction l generalizing m with
  | nil => simp [minEntry] at h
  | cons a t ih =>
    rw [minEntry] at h
    cases ht : minEntry t with
    | none =>
      rw [ht] at h
      dsimp only at h
      have := Option.some.inj h
      subst this
      exact List.mem_cons_self _ _
    | some m1 =>
      rw [ht] at h
      dsimp only at h
      split at h
      · have := Option.some.inj h
        subst this
        exact List.mem_cons_self _ _
      · have := Option.some.inj h
        subst this
        exact List.mem_cons_of_mem _ (ih ht)

theorem minEntry_min {l : List (ℚ × Cell)} {m : ℚ × Cell}
    (h : minEntry l = some m) : ∀ e ∈ l, m.1 ≤ e.1 := by
  induction l generalizing m with
  | nil => simp [minEntry] at h
  | cons a t ih =>
    intro e he
    rw [minEntry] at h
    cases ht : minEntry t with
    | none =>
      rw [ht] at h
      dsimp only at h
      have hm := Option.some.inj h
      subst hm
      have ht0 : t = [] := by
        cases t with
        | nil => rfl
        | cons x xs =>
          have hs := minEntry_cons_isSome x xs
          rw [ht] at hs
          simp at hs
      subst ht0
      rcases List.mem_singleton.mp he with rfl
      exact le_refl _
    | some m1 =>
      rw [ht] at h
      dsimp only at h
      rcases List.mem_cons.mp he with rfl | he1
      · split at h
        · have hm := Option.some.inj h
          subst hm
          exact le_refl _
        · rename_i hle
          have hm := Option.some.inj h
          subst hm
          exact entryLe_false_le (Bool.eq_false_iff.mpr hle)
      · split at h
        · rename_i hle
          have hm := Option.some.inj h
          subst hm
          exact le_trans (entryLe_true_le hle) (ih ht e he1)
        · have hm := Option.some.inj h
          subst hm
          exact ih ht e he1

theorem CWalk.shape {nbrs : Cell → List (Cell × ℚ)} {a : Cell} {l : List Cell}
    {z : Cell} {q : ℚ} (h : CWalk nbrs a l z q) : ∃ t, l = a :: t := by
  cases h with
  | nil => exact ⟨[], rfl⟩
  | cons hm hw => exact ⟨_, rfl⟩

theorem CWalk.head_eq {nbrs : Cell → List (Cell × ℚ)} {a : Cell} {l : List Cell}
    {z : Cell} {q : ℚ} (h : CWalk nbrs a l z q) : l.head? = some a := by
  obtain ⟨t, rfl⟩ := h.shape
  rfl

theorem CWalk.last_eq {nbrs : Cell → List (Cell × ℚ)} {a : Cell} {l : List Cell}
    {z : Cell} {q : ℚ} (h : CWalk nbrs a l z q) : l.getLast? = some z := by
  induction h with
  | nil c => rfl
  | cons hm hw ih =>
    obtain ⟨t, rfl⟩ := hw.shape
    rw [List.getLast?_cons_cons]
    exact ih

theorem CWalk.cost_nonneg {nbrs : Cell → List (Cell × ℚ)} {a : Cell}
    {l : List Cell} {z : Cell} {q : ℚ}
    (hws : ∀ c b w, (b, w) ∈ nbrs c → 0 < w)
    (h : CWalk nbrs a l z q) : 0 ≤ q := by
  induction h with
  | nil c => exact le_refl 0
  | cons hm hw ih =>
    have := hws _ _ _ hm
    linarith

theorem CWalk.snoc {nbrs : Cell → List (Cell × ℚ)} {a : Cell} {l : List Cell}
    {z b : Cell} {q w : ℚ} (h : CWalk nbrs a l z q) (hmem : (b, w) ∈ nbrs z) :
    CWalk nbrs a (l ++ [b]) b (q + w) := by
  induction h with
  | nil c => simpa using CWalk.cons hmem (CWalk.nil b)
  | cons hm hw ih =>
    simpa [add_assoc] using CWalk.cons hm (ih hmem)

theorem countP_le_of_imp {α : Type} (l : List α) (p q : α → Bool)
    (hmono : ∀ a ∈ l, p a = true → q a = true) : l.countP p ≤ l.countP q := by
  induction l with
  | nil => simp
  | cons a t ih =>
    rw [List.countP_cons, List.countP_cons]
    have h1 := ih (fun x hx => hmono x (List.mem_cons_of_mem _ hx))
    by_cases hpa : p a = true
    · simp only [hpa, hmono a (List.mem_cons_self a t) hpa, if_true]
      omega
    · simp only [Bool.eq_false_iff.mpr hpa, Bool.false_eq_true, if_false]
      split <;> omega

theorem countP_lt_of_witness {α : Type} (l : List α) (p q : α → Bool)
    (hmono : ∀ a ∈ l, p a = true → q a = true) {x : α} (hx : x ∈ l)
    (hpx : p x = false) (hqx : q x = true) : l.countP p < l.countP q := by
  induction l with
  | nil => simp at hx
  | cons a t ih =>
    rw [List.countP_cons, List.countP_cons]
    rcases List.mem_cons.mp hx with rfl | hx1
    · have := countP_le_of_imp t p q (fun y hy => hmono y (List.mem_cons_of_mem _ hy))
      simp only [hpx, hqx, Bool.false_eq_true, if_false, if_true]
      omega
    · have h2 := ih (fun y hy => hmono y (List.mem_cons_of_mem _ hy)) hx1
      by_cases hpa : p a = true
      · simp only [hpa, hmono a (List.mem_cons_self a t) hpa, if_true]
        omega
      · simp only [Bool.eq_false_iff.mpr hpa, Bool.false_eq_true, if_false]
        split <;> omega

theorem CostMono.rfl_self (s : AState) : CostMono s s :=
  fun c v hv => ⟨v, hv, le_refl v⟩

theorem CostMono.trans {s t u : AState} (h1 : CostMono s t) (h2 : CostMono t u) :
    CostMono s u := by
  intro c v hv
  obtain ⟨v1, hv1, hle1⟩ := h1 c v hv
  obtain ⟨v2, hv2, hle2⟩ := h2 c v1 hv1
  exact ⟨v2, hv2, le_trans hle2 hle1⟩

/-! ## Relaxation lemmas -/

theorem relaxOne_spec (nbrs : Cell → List (Cell × ℚ)) (h : Cell → Cell → ℚ)
    (start goal cur : Cell) (vstar : ℚ) (nb : Cell × ℚ) (s : AState)
    (hcore : InvCore nbrs h start goal s)
    (hcur : alookup s.cost_so_far cur = some vstar)
    (hocs : ∀ c, c ≠ cur → OCAt nbrs h goal s c)
    (hw : 0 < nb.2) (hnb : nb ∈ nbrs cur) :
    ∃ s', relaxOne h goal cur s nb = .ok s' ∧
      RelaxOut nbrs h start goal cur vstar nb s s' := by
  obtain ⟨b, w⟩ := nb
  dsimp only at hw
  have hv0 : 0 ≤ vstar := hcore.cost_nonneg cur vstar hcur
  have key : (∀ v, alookup s.cost_so_far b = some v → vstar + w < v) →
      RelaxOut nbrs h start goal cur vstar (b, w) s
        { s with
          cost_so_far := (b, vstar + w) :: s.cost_so_far
          frontier := (vstar + w + h b goal, b) :: s.frontier
          came_from := (b, some cur) :: s.came_from } := by
    intro hlt
    have hbstart : b ≠ start := by
      intro hbs
      subst hbs
      have := hlt 0 hcore.cost_start
      linarith
    have hbcur : b ≠ cur := by
      intro hbc
      subst hbc
      have := hlt vstar hcur
      linarith
    refine
      { core := ?_, cost_cur := ?_, ocs := ?_, mono := ?_, fsub := ?_
        relaxed := ?_, fnew := ?_ }
    · refine
        { cost_nonneg := ?_, cost_start := ?_, cf_start := ?_, cf_none := ?_
          cost_cf := ?_, cf_edge := ?_, frontier_cost := ?_ }
      · intro c v hv
        dsimp only at hv
        by_cases hbc : b = c
        · subst hbc
          rw [alookup_cons_self] at hv
          have := Option.some.inj hv
          subst this
          linarith
        · rw [alookup_cons_ne _ _ hbc] at hv
          exact hcore.cost_nonneg c v hv
      · dsimp only
        rw [alookup_cons_ne _ _ hbstart]
        exact hcore.cost_start
      · dsimp only
        rw [alookup_cons_ne _ _ hbstart]
        exact hcore.cf_start
      · intro c hc
        dsimp only at hc
        by_cases hbc : b = c
        · subst hbc
          rw [alookup_cons_self] at hc
          simp at hc
        · rw [alookup_cons_ne _ _ hbc] at hc
          exact hcore.cf_none c hc
      · intro c v hv
        dsimp only at hv ⊢
        by_cases hbc : b = c
        · subst hbc
          exact ⟨some cur, alookup_cons_self _ _ _⟩
        · rw [alookup_cons_ne _ _ hbc] at hv
          obtain ⟨o, ho⟩ := hcore.cost_cf c v hv
          exact ⟨o, by rw [alookup_cons_ne _ _ hbc]; exact ho⟩
      · intro c p hc
        dsimp only at hc ⊢
        by_cases hbc : b = c
        · subst hbc
          rw [alookup_cons_self] at hc
          have hp := Option.some.inj hc
          have hp2 := Option.some.inj hp
          subst hp2
          refine ⟨w, vstar + w, vstar, hnb, alookup_cons_self _ _ _, ?_, le_refl _⟩
          rw [alookup_cons_ne _ _ hbcur]
          exact hcur
        · rw [alookup_cons_ne _ _ hbc] at hc
          obtain ⟨w1, vc, vp, hm1, hvc, hvp, hsum⟩ := hcore.cf_edge c p hc
          by_cases hbp : b = p
          · subst hbp
            have hlt2 := hlt vp hvp
            refine ⟨w1, vc, vstar + w, hm1, ?_, alookup_cons_self _ _ _, by linarith⟩
            rw [alookup_cons_ne _ _ hbc]
            exact hvc
          · refine ⟨w1, vc, vp, hm1, ?_, ?_, hsum⟩
            · rw [alookup_cons_ne _ _ hbc]
              exact hvc
            · rw [alookup_cons_ne _ _ hbp]
              exact hvp
      · intro pr c hmem2
        dsimp only at hmem2 ⊢
        rcases List.mem_cons.mp hmem2 with heq | hold
        · rw [Prod.mk.injEq] at heq
          obtain ⟨rfl, rfl⟩ := heq
          left
          exact ⟨vstar + w, alookup_cons_self _ _ _, le_refl _⟩
        · rcases hcore.frontier_cost pr c hold with ⟨v, hv, hle⟩ | hsp
          · by_cases hbc : b = c
            · subst hbc
              have hlt2 := hlt v hv
              left
              exact ⟨vstar + w, alookup_cons_self _ _ _, by linarith⟩
            · left
              refine ⟨v, ?_, hle⟩
              rw [alookup_cons_ne _ _ hbc]
              exact hv
          · right
            exact hsp
    · dsimp only
      rw [alookup_cons_ne _ _ hbcur]
      exact hcur
    · intro c hccur v hv
      dsimp only at hv ⊢
      by_cases hbc : b = c
      · subst hbc
        rw [alookup_cons_self] at hv
        have := Option.some.inj hv
        subst this
        right
        exact ⟨vstar + w + h b goal, List.mem_cons_self _ _, le_refl _⟩
      · rw [alookup_cons_ne _ _ hbc] at hv
        rcases hocs c hccur v hv with hcons | ⟨pr, hprmem, hprle⟩
        · left
          intro d wd hd
          obtain ⟨vd, hvd, hvdle⟩ := hcons d wd hd
          by_cases hbd : b = d
          · subst hbd
            have hlt2 := hlt vd hvd
            exact ⟨vstar + w, alookup_cons_self _ _ _, by linarith⟩
          · refine ⟨vd, ?_, hvdle⟩
            rw [alookup_cons_ne _ _ hbd]
            exact hvd
        · right
          exact ⟨pr, List.mem_cons_of_mem _ hprmem, hprle⟩
    · intro c v hv
      dsimp only
      by_cases hbc : b = c
      · subst hbc
        have hlt2 := hlt v hv
        exact ⟨vstar + w, alookup_cons_self _ _ _, le_of_lt hlt2⟩
      · refine ⟨v, ?_, le_refl v⟩
        rw [alookup_cons_ne _ _ hbc]
        exact hv
    · intro e he
      exact List.mem_cons_of_mem _ he
    · dsimp only
      exact ⟨vstar + w, alookup_cons_self _ _ _, le_refl _⟩
    · intro e he
      dsimp only at he
      rcases List.mem_cons.mp he with heq | hold
      · subst heq
        right
        dsimp only
        exact ⟨vstar + w, alookup_cons_self _ _ _, fun v hv => hlt v hv⟩
      · left
        exact hold
  rcases hbv : alookup s.cost_so_far b with _ | old
  · refine ⟨_, ?_, key (fun v hv => by rw [hbv] at hv; cases hv)⟩
    simp only [relaxOne, hcur, hbv]
  · by_cases hlt2 : vstar + w < old
    · refine ⟨_, ?_, key (fun v hv => by
        rw [hbv] at hv
        have := Option.some.inj hv
        subst this
        exact hlt2)⟩
      simp only [relaxOne, hcur, hbv, if_pos hlt2]
    · refine ⟨s, ?_, ?_⟩
      · simp only [relaxOne, hcur, hbv, if_neg hlt2]
      · refine
          { core := hcore, cost_cur := hcur, ocs := hocs
            mono := CostMono.rfl_self s, fsub := fun e he => he
            relaxed := ⟨old, hbv, by dsimp only; linarith [not_lt.mp hlt2]⟩
            fnew := fun e he => Or.inl he }

theorem relaxList_spec (nbrs : Cell → List (Cell × ℚ)) (h : Cell → Cell → ℚ)
    (start goal cur : Cell) (vstar : ℚ) (L : List (Cell × ℚ)) :
    ∀ (s : AState), InvCore nbrs h start goal s →
    alookup s.cost_so_far cur = some vstar →
    (∀ c, c ≠ cur → OCAt nbrs h goal s c) →
    (∀ x ∈ L, x ∈ nbrs cur) →
    (∀ b w, (b, w) ∈ L → 0 < w) →
    ∃ s', relaxList h goal cur L s = .ok s' ∧
      RelaxListOut nbrs h start goal cur vstar L s s' := by
  induction L with
  | nil =>
    intro s hcore hcur hocs _ _
    refine ⟨s, rfl, ?_⟩
    exact
      { core := hcore, cost_cur := hcur, ocs := hocs
        mono := CostMono.rfl_self s, fsub := fun e he => he
        post := by intro b w hbw; simp at hbw
        fnew := fun e he => Or.inl he }
  | cons nb rest ih =>
    intro s hcore hcur hocs hsub hws
    have hw : 0 < nb.2 := hws nb.1 nb.2 (List.mem_cons_self _ _)
    have hnb : nb ∈ nbrs cur := hsub nb (List.mem_cons_self _ _)
    obtain ⟨s1, heq1, out1⟩ :=
      relaxOne_spec nbrs h start goal cur vstar nb s hcore hcur hocs hw hnb
    obtain ⟨s2, heq2, out2⟩ :=
      ih s1 out1.core out1.cost_cur out1.ocs
        (fun x hx => hsub x (List.mem_cons_of_mem _ hx))
        (fun b w hbw => hws b w (List.mem_cons_of_mem _ hbw))
    refine ⟨s2, ?_, ?_⟩
    · simp only [relaxList, heq1]
      exact heq2
    · refine
        { core := out2.core, cost_cur := out2.cost_cur, ocs := out2.ocs
          mono := out1.mono.trans out2.mono
          fsub := fun e he => out2.fsub (out1.fsub he)
          post := ?_, fnew := ?_ }
      · intro b w hbw
        rcases List.mem_cons.mp hbw with heq | h2
        · subst heq
          obtain ⟨vb, hvb, hvble⟩ := out1.relaxed
          obtain ⟨vb2, hvb2, hle2⟩ := out2.mono _ vb hvb
          exact ⟨vb2, hvb2, le_trans hle2 hvble⟩
        · exact out2.post b w h2
      · intro e he
        rcases out2.fnew e he with h1 | ⟨v2, hv2, hlt2⟩
        · rcases out1.fnew e h1 with h0 | ⟨v1, hv1, hlt1⟩
          · exact Or.inl h0
          · obtain ⟨v3, hv3, hle3⟩ := out2.mono _ v1 hv1
            exact Or.inr ⟨v3, hv3, fun v hv => lt_of_le_of_lt hle3 (hlt1 v hv)⟩
        · refine Or.inr ⟨v2, hv2, fun v hv => ?_⟩
          obtain ⟨v1, hv1, hle1⟩ := out1.mono _ v hv
          exact lt_of_lt_of_le (hlt2 v1 hv1) hle1

theorem astar_step_preserves (nbrs : Cell → List (Cell × ℚ)) (h : Cell → Cell → ℚ)
    (start goal : Cell) (s : AState) (m : ℚ × Cell)
    (hinv : AInv nbrs h start goal s) (hmem : m ∈ s.frontier)
    (hws : ∀ c b w, (b, w) ∈ nbrs c → 0 < w) :
    ∃ s2, relaxList h goal m.2 (nbrs m.2)
        { s with frontier := s.frontier.erase m, visited := m.2 :: s.visited } = .ok s2 ∧
      AInv nbrs h start goal s2 := by
  obtain ⟨hcore, hoc⟩ := hinv
  have hvs : ∃ vstar, alookup s.cost_so_far m.2 = some vstar := by
    rcases hcore.frontier_cost m.1 m.2 hmem with ⟨v, hv, _⟩ | ⟨_, hm2⟩
    · exact ⟨v, hv⟩
    · rw [hm2]
      exact ⟨0, hcore.cost_start⟩
  obtain ⟨vstar, hvstar⟩ := hvs
  have hcore1 : InvCore nbrs h start goal
      { s with frontier := s.frontier.erase m, visited := m.2 :: s.visited } :=
    { cost_nonneg := hcore.cost_nonneg, cost_start := hcore.cost_start
      cf_start := hcore.cf_start, cf_none := hcore.cf_none
      cost_cf := hcore.cost_cf, cf_edge := hcore.cf_edge
      frontier_cost := fun pr c hmem2 =>
        hcore.frontier_cost pr c (List.mem_of_mem_erase hmem2) }
  have hocs1 : ∀ c, c ≠ m.2 → OCAt nbrs h goal
      { s with frontier := s.frontier.erase m, visited := m.2 :: s.visited } c := by
    intro c hcne v hv
    rcases hoc c v hv with hcons | ⟨pr, hprmem, hprle⟩
    · exact Or.inl hcons
    · refine Or.inr ⟨pr, ?_, hprle⟩
      have hne2 : ((pr, c) : ℚ × Cell) ≠ m := by
        intro heq
        apply hcne
        rw [← heq]
      exact (List.mem_erase_of_ne hne2).mpr hprmem
  obtain ⟨s2, heq, out⟩ :=
    relaxList_spec nbrs h start goal m.2 vstar (nbrs m.2) _ hcore1 hvstar hocs1
      (fun x hx => hx) (fun b w hbw => hws m.2 b w hbw)
  refine ⟨s2, heq, out.core, ?_⟩
  intro c
  by_cases hc : c = m.2
  · subst hc
    intro v hv
    have hcc := out.cost_cur
    rw [hv] at hcc
    have hveq := Option.some.inj hcc
    subst hveq
    left
    intro b w hbw
    obtain ⟨vb, hvb, hvble⟩ := out.post b w hbw
    exact ⟨vb, hvb, hvble⟩
  · exact out.ocs c hc

theorem initState_AInv (nbrs : Cell → List (Cell × ℚ)) (h : Cell → Cell → ℚ)
    (start goal : Cell) (hnn : ∀ c, 0 ≤ h c goal) :
    AInv nbrs h start goal (initState start) := by
  constructor
  · refine
      { cost_nonneg := ?_, cost_start := ?_, cf_start := ?_, cf_none := ?_
        cost_cf := ?_, cf_edge := ?_, frontier_cost := ?_ }
    · intro c v hv
      simp only [initState, alookup] at hv
      split at hv
      · have := Option.some.inj hv
        subst this
        exact le_refl 0
      · cases hv
    · simp [initState, alookup]
    · simp [initState, alookup]
    · intro c hc
      simp only [initState, alookup] at hc
      split at hc
      · rename_i hsc
        exact hsc.symm
      · cases hc
    · intro c v hv
      simp only [initState, alookup] at hv ⊢
      split at hv
      · rename_i hsc
        rw [if_pos hsc]
        exact ⟨none, rfl⟩
      · cases hv
    · intro c p hc
      simp only [initState, alookup] at hc
      split at hc
      · simp at hc
      · cases hc
    · intro pr c hmem
      simp only [initState] at hmem
      have := List.mem_singleton.mp hmem
      rw [Prod.mk.injEq] at this
      exact Or.inr this
  · intro c v hv
    simp only [initState, alookup] at hv
    split at hv
    · rename_i hsc
      have hv0 := Option.some.inj hv
      subst hv0
      subst hsc
      right
      refine ⟨0, ?_, ?_⟩
      · simp [initState]
      · simpa using hnn start
    · cases hv

theorem descend (nbrs : Cell → List (Cell × ℚ)) (h : Cell → Cell → ℚ)
    (start goal : Cell) (s : AState) (hinv : AInv nbrs h start goal s)
    (hadm : ∀ c l q, CWalk nbrs c l goal q → h c goal ≤ q) :
    ∀ {c l q}, CWalk nbrs c l goal q → ∀ {v}, alookup s.cost_so_far c = some v →
      (∃ vg, alookup s.cost_so_far goal = some vg ∧ vg ≤ v + q) ∨
      (∃ pr c2, (pr, c2) ∈ s.frontier ∧ pr ≤ v + q) := by
  intro c l q hwalk
  revert hinv hadm
  induction hwalk with
  | nil c0 =>
    intro hinv2 hadm2 v hv
    left
    exact ⟨v, hv, by linarith⟩
  | cons hm hw ih =>
    rename_i a b z w q2 l2
    intro hinv2 hadm2 v hv
    rcases hinv2.2 a v hv with hcons | ⟨pr, hprmem, hprle⟩
    · obtain ⟨vb, hvb, hvble⟩ := hcons b w hm
      rcases ih hinv2 hadm2 hvb with ⟨vg, hg, hgle⟩ | ⟨pr, c2, hin, hple⟩
      · left
        exact ⟨vg, hg, by linarith⟩
      · right
        exact ⟨pr, c2, hin, by linarith⟩
    · right
      have hh := hadm2 a _ _ (CWalk.cons hm hw)
      exact ⟨pr, a, hprmem, by linarith⟩

theorem goal_pop (nbrs : Cell → List (Cell × ℚ)) (h : Cell → Cell → ℚ)
    (start goal : Cell) (s : AState) (prg : ℚ)
    (hinv : AInv nbrs h start goal s)
    (hws : ∀ c b w, (b, w) ∈ nbrs c → 0 < w)
    (hnn : ∀ c, 0 ≤ h c goal)
    (hadm : ∀ c l q, CWalk nbrs c l goal q → h c goal ≤ q)
    (hpop : minEntry s.frontier = some (prg, goal)) :
    ∃ vg, alookup s.cost_so_far goal = some vg ∧
      ∀ l q, CWalk nbrs start l goal q → vg ≤ q := by
  have hmem := minEntry_mem hpop
  have hgg : h goal goal = 0 := by
    have h1 := hadm goal [goal] 0 (CWalk.nil goal)
    have h2 := hnn goal
    linarith
  rcases hinv.1.frontier_cost prg goal hmem with ⟨vg, hvg, hble⟩ | ⟨hpr0, hgs⟩
  · refine ⟨vg, hvg, ?_⟩
    intro l q hwalk
    rcases descend nbrs h start goal s hinv hadm hwalk hinv.1.cost_start with
      ⟨vg2, hg2, hle2⟩ | ⟨pr, c2, hin, hple⟩
    · rw [hvg] at hg2
      have := Option.some.inj hg2
      subst this
      linarith
    · have hminle := minEntry_min hpop (pr, c2) hin
      dsimp only at hminle
      rw [hgg] at hble
      linarith
  · subst hgs
    refine ⟨0, hinv.1.cost_start, ?_⟩
    intro l q hwalk
    exact CWalk.cost_nonneg hws hwalk

theorem reconstructGo_spec (nbrs : Cell → List (Cell × ℚ))
    (cf : List (Cell × Option Cell)) (cost : List (Cell × ℚ))
    (start goal : Cell)
    (hcf_none : ∀ c, alookup cf c = some none → c = start)
    (hcost_cf : ∀ c v, alookup cost c = some v → ∃ o, alookup cf c = some o)
    (hcf_edge : ∀ c p, alookup cf c = some (some p) →
      ∃ w vc vp, (c, w) ∈ nbrs p ∧ alookup cost c = some vc ∧
        alookup cost p = some vp ∧ vp + w ≤ vc)
    (hws : ∀ c b w, (b, w) ∈ nbrs c → 0 < w)
    (hstart0 : alookup cost start = some 0)
    (vg : ℚ) :
    ∀ (n : Nat) (current : Cell) (v : ℚ) (acc : List Cell) (qacc : ℚ),
      alookup cost current = some v →
      CWalk nbrs current (current :: acc) goal qacc →
      qacc + v ≤ vg →
      cf.countP (fun e =>
        match alookup cost e.1 with
        | some u => decide (u < v)
        | none => false) < n →
      ∃ p cp, reconstructGo cf start n current acc = some (.ok p) ∧
        CWalk nbrs start p goal cp ∧ cp ≤ vg := by
  intro n
  induction n with
  | zero =>
    intro current v acc qacc _ _ _ hcount
    exact absurd hcount (Nat.not_lt_zero _)
  | succ n ih =>
    intro current v acc qacc hv hwalk hqb hcount
    by_cases hcs : current = start
    · have hveq : v = 0 := by
        rw [hcs, hstart0] at hv
        exact (Option.some.inj hv).symm
      refine ⟨start :: acc, qacc, ?_, ?_, by linarith⟩
      · simp [reconstructGo, hcs]
      · rw [← hcs]
        exact hwalk
    · obtain ⟨o, ho⟩ := hcost_cf current v hv
      cases o with
      | none =>
        exact absurd (hcf_none current ho) hcs
      | some prev =>
        obtain ⟨w, vc, vp, hm, hvc, hvp, hsum⟩ := hcf_edge current prev ho
        rw [hv] at hvc
        have hvceq := Option.some.inj hvc
        subst hvceq
        have hwpos := hws _ _ _ hm
        have hvplt : vp < v := by linarith
        have hwalk2 : CWalk nbrs prev (prev :: current :: acc) goal (w + qacc) :=
          CWalk.cons hm hwalk
        obtain ⟨o2, ho2⟩ := hcost_cf prev vp hvp
        have ho2mem := alookup_mem ho2
        have hlt2 : cf.countP (fun e =>
            match alookup cost e.1 with
            | some u => decide (u < vp)
            | none => false) <
            cf.countP (fun e =>
            match alookup cost e.1 with
            | some u => decide (u < v)
            | none => false) := by
          apply countP_lt_of_witness cf _ _ ?_ ho2mem ?_ ?_
          · intro e hemem hpe
            dsimp only at hpe ⊢
            rcases healt : alookup cost e.1 with _ | u
            · rw [healt] at hpe
              simp at hpe
            · rw [healt] at hpe
              simp only [decide_eq_true_eq] at hpe ⊢
              exact lt_trans hpe hvplt
          · dsimp only
            rw [hvp]
            simp
          · dsimp only
            rw [hvp]
            simp [hvplt]
        have hcount2 := lt_of_lt_of_le hlt2 (Nat.lt_succ_iff.mp hcount)
        obtain ⟨p, cp, hrec, hwp, hcple⟩ :=
          ih prev vp (current :: acc) (w + qacc) hvp hwalk2 (by linarith) hcount2
        refine ⟨p, cp, ?_, hwp, hcple⟩
        simp only [reconstructGo, if_neg hcs, ho]
        exact hrec

theorem astarPath_ok {g : CozGrid} {h : Cell → Cell → ℚ} {fuel : Nat}
    {p : List Cell} (hp : astarPath g h fuel = .ok p) :
    ∃ sf, astar g h fuel = .ok (p, sf) := by
  rw [astarPath] at hp
  cases hast : astar g h fuel with
  | ok pr =>
    obtain ⟨p2, sf⟩ := pr
    rw [hast] at hp
    dsimp only at hp
    have := Except.ok.inj hp
    subst this
    exact ⟨sf, rfl⟩
  | error e =>
    rw [hast] at hp
    simp at hp

theorem astarLoop_opt (nbrs : Cell → List (Cell × ℚ)) (h : Cell → Cell → ℚ)
    (start goal : Cell)
    (hws : ∀ c b w, (b, w) ∈ nbrs c → 0 < w)
    (hnn : ∀ c, 0 ≤ h c goal)
    (hadm : ∀ c l q, CWalk nbrs c l goal q → h c goal ≤ q) :
    ∀ (fuel : Nat) (s : AState) (p : List Cell) (sf : AState),
      AInv nbrs h start goal s →
      astarLoop nbrs start h goal fuel s = .ok (p, sf) →
      ∃ cp, CWalk nbrs start p goal cp ∧
        ∀ l q, CWalk nbrs start l goal q → cp ≤ q := by
  intro fuel
  induction fuel with
  | zero =>
    intro s p sf hinv hok
    simp [astarLoop] at hok
  | succ fuel ih =>
    intro s p sf hinv hok
    simp only [astarLoop] at hok
    cases hm : minEntry s.frontier with
    | none =>
      rw [hm] at hok
      simp at hok
    | some m =>
      rw [hm] at hok
      dsimp only at hok
      by_cases hg : m.2 = goal
      · rw [if_pos hg] at hok
        have hpop : minEntry s.frontier = some (m.1, goal) := by
          rw [← hg]
          exact hm
        obtain ⟨vg, hvg, hvgmin⟩ :=
          goal_pop nbrs h start goal s m.1 hinv hws hnn hadm hpop
        obtain ⟨p2, cp, hrec, hwp, hcple⟩ :=
          reconstructGo_spec nbrs s.came_from s.cost_so_far start goal
            hinv.1.cf_none hinv.1.cost_cf hinv.1.cf_edge hws hinv.1.cost_start vg
            (s.came_from.length + 1) goal vg [] 0 hvg (CWalk.nil goal)
            (by linarith) (Nat.lt_succ_of_le (List.countP_le_length _))
        have hrp : reconstruct_path s.came_from start goal (s.came_from.length + 1) =
            some (.ok p2) := hrec
        rw [hrp] at hok
        dsimp only at hok
        have hinj := Except.ok.inj hok
        rw [Prod.mk.injEq] at hinj
        obtain ⟨hp2, hsf⟩ := hinj
        subst hp2
        exact ⟨cp, hwp, fun l q hwq => le_trans hcple (hvgmin l q hwq)⟩
      · rw [if_neg hg] at hok
        obtain ⟨s2, heq2, hinv2⟩ :=
          astar_step_preserves nbrs h start goal s m hinv (minEntry_mem hm) hws
        rw [heq2] at hok
        dsimp only at hok
        exact ih s2 p sf hinv2 hok

/-! ## Claim C1: optimality of the returned path -/

/-- C1: for a grid whose goal list starts with a goal reachable from the
start, with positive edge weights (the grid contract) and a non-negative
heuristic that never overestimates the cost of any walk to the goal
(admissibility), every path returned by `astar` runs from the start to the
goal and its total cost is a lower bound on the cost of every start-to-goal
walk: the returned path has minimum total cost under the given edge
weights among all start-to-goal paths. -/
theorem astar_returns_minimum_cost_path
    (g : CozGrid) (h : Cell → Cell → ℚ) (goal : Cell) (rest : List Cell)
    (fuel : Nat) (p : List Cell)
    (hgoals : g.getGoals = goal :: rest)
    (hws : ∀ c b w, (b, w) ∈ g.getNeighbors c → 0 < w)
    (hnn : ∀ c, 0 ≤ h c goal)
    (hadm : ∀ c l q, CWalk g.getNeighbors c l goal q → h c goal ≤ q)
    (hreach : ∃ l q, CWalk g.getNeighbors g.getStart l goal q)
    (hok : astarPath g h fuel = .ok p) :
    p.head? = some g.getStart ∧ p.getLast? = some goal ∧
    ∃ cp, CWalk g.getNeighbors g.getStart p goal cp ∧
      ∀ l q, CWalk g.getNeighbors g.getStart l goal q → cp ≤ q := by
  obtain ⟨sf, hast⟩ := astarPath_ok hok
  rw [astar, hgoals] at hast
  dsimp only at hast
  obtain ⟨cp, hwp, hmin⟩ :=
    astarLoop_opt g.getNeighbors h g.getStart goal hws hnn hadm fuel
      (initState g.getStart) p sf
      (initState_AInv g.getNeighbors h g.getStart goal hnn) hast
  exact ⟨hwp.head_eq, hwp.last_eq, cp, hwp, hmin⟩

/-- Witness for C1: on the two-cell grid `testGrid1` the search returns the
path `[(0,0), (1,0)]`, which is a start-to-goal walk of minimum cost. -/
theorem astar_returns_minimum_cost_path_witness :
    ([((0 : Int), (0 : Int)), ((1 : Int), (0 : Int))] : List Cell).head? =
      some testGrid1.getStart ∧
    ([((0 : Int), (0 : Int)), ((1 : Int), (0 : Int))] : List Cell).getLast? =
      some (((1 : Int), (0 : Int)) : Cell) ∧
    ∃ cp, CWalk testGrid1.getNeighbors testGrid1.getStart
        [((0 : Int), (0 : Int)), ((1 : Int), (0 : Int))] ((1 : Int), (0 : Int)) cp ∧
      ∀ l q, CWalk testGrid1.getNeighbors testGrid1.getStart l ((1 : Int), (0 : Int)) q →
        cp ≤ q := by
  have hws1 : ∀ c b w, (b, w) ∈ testGrid1.getNeighbors c → 0 < w := by
    intro c b w hbw
    simp only [testGrid1] at hbw
    split at hbw
    · simp only [List.mem_singleton, Prod.mk.injEq] at hbw
      rw [hbw.2]
      norm_num
    · simp at hbw
  have hreach1 : ∃ l q,
      CWalk testGrid1.getNeighbors testGrid1.getStart l (((1 : Int), (0 : Int)) : Cell) q := by
    refine ⟨[(0, 0), (1, 0)], 1 + 0, CWalk.cons ?_ (CWalk.nil _)⟩
    simp [testGrid1]
  exact astar_returns_minimum_cost_path testGrid1 hZero (1, 0) [] 5
    [(0, 0), (1, 0)] rfl hws1 (fun c => le_refl 0)
    (fun c l q hw => CWalk.cost_nonneg hws1 hw) hreach1 rfl

/-! ## Claim C2: unreachable goal -/

theorem relaxOne_dom (h : Cell → Cell → ℚ) (goal cur : Cell) (s : AState)
    (nb : Cell × ℚ) (cc : ℚ) (hcc : alookup s.cost_so_far cur = some cc) :
    ∃ s1, relaxOne h goal cur s nb = .ok s1 ∧
      (∀ c v, alookup s.cost_so_far c = some v → ∃ v2, alookup s1.cost_so_far c = some v2) ∧
      (∀ e ∈ s1.frontier, e ∈ s.frontier ∨
        (e.2 = nb.1 ∧ ∃ v, alookup s1.cost_so_far e.2 = some v)) := by
  obtain ⟨b, w⟩ := nb
  have hpushdom : ∀ (x : ℚ) (c : Cell) (v : ℚ), alookup s.cost_so_far c = some v →
      ∃ v2, alookup ((b, x) :: s.cost_so_far) c = some v2 := by
    intro x c v hv
    by_cases hbc : b = c
    · subst hbc
      exact ⟨x, alookup_cons_self _ _ _⟩
    · refine ⟨v, ?_⟩
      rw [alookup_cons_ne _ _ hbc]
      exact hv
  rcases hbv : alookup s.cost_so_far b with _ | old
  · refine
      ⟨{ s with
          cost_so_far := (b, cc + w) :: s.cost_so_far
          frontier := (cc + w + h b goal, b) :: s.frontier
          came_from := (b, some cur) :: s.came_from }, ?_, hpushdom _, ?_⟩
    · simp only [relaxOne, hcc, hbv]
    · intro e he
      dsimp only at he
      rcases List.mem_cons.mp he with heq | hold
      · subst heq
        right
        exact ⟨rfl, cc + w, alookup_cons_self _ _ _⟩
      · exact Or.inl hold
  · by_cases hlt : cc + w < old
    · refine
        ⟨{ s with
            cost_so_far := (b, cc + w) :: s.cost_so_far
            frontier := (cc + w + h b goal, b) :: s.frontier
            came_from := (b, some cur) :: s.came_from }, ?_, hpushdom _, ?_⟩
      · simp only [relaxOne, hcc, hbv, if_pos hlt]
      · intro e he
        dsimp only at he
        rcases List.mem_cons.mp he with heq | hold
        · subst heq
          right
          exact ⟨rfl, cc + w, alookup_cons_self _ _ _⟩
        · exact Or.inl hold
    · refine ⟨s, ?_, fun c v hv => ⟨v, hv⟩, fun e he => Or.inl he⟩
      simp only [relaxOne, hcc, hbv, if_neg hlt]

theorem relaxList_reach (nbrs : Cell → List (Cell × ℚ)) (h : Cell → Cell → ℚ)
    (goal cur start : Cell) (L : List (Cell × ℚ))
    (hsub : ∀ x ∈ L, x ∈ nbrs cur)
    (hcurreach : ∃ l q, CWalk nbrs start l cur q) :
    ∀ (s : AState) (cc : ℚ), alookup s.cost_so_far cur = some cc →
    (∀ pr c, (pr, c) ∈ s.frontier → ∃ l q, CWalk nbrs start l c q) →
    (∀ pr c, (pr, c) ∈ s.frontier → ∃ v, alookup s.cost_so_far c = some v) →
    ∃ s2, relaxList h goal cur L s = .ok s2 ∧ ReachInv nbrs start s2 := by
  induction L with
  | nil =>
    intro s cc hcc hfr hfd
    exact ⟨s, rfl, ⟨hfr, hfd⟩⟩
  | cons nb rest ih =>
    intro s cc hcc hfr hfd
    obtain ⟨s1, heq1, hdom, hfnew⟩ := relaxOne_dom h goal cur s nb cc hcc
    obtain ⟨cc2, hcc2⟩ := hdom cur cc hcc
    have hfr1 : ∀ pr c, (pr, c) ∈ s1.frontier → ∃ l q, CWalk nbrs start l c q := by
      intro pr c hmem
      rcases hfnew (pr, c) hmem with hold | ⟨hc, _⟩
      · exact hfr pr c hold
      · dsimp only at hc
        subst hc
        obtain ⟨l, q, hwalk⟩ := hcurreach
        exact ⟨l ++ [nb.1], q + nb.2, hwalk.snoc (hsub nb (List.mem_cons_self _ _))⟩
    have hfd1 : ∀ pr c, (pr, c) ∈ s1.frontier → ∃ v, alookup s1.cost_so_far c = some v := by
      intro pr c hmem
      rcases hfnew (pr, c) hmem with hold | ⟨_, hv⟩
      · obtain ⟨v, hv⟩ := hfd pr c hold
        exact hdom c v hv
      · exact hv
    obtain ⟨s2, heq2, hri⟩ :=
      ih (fun x hx => hsub x (List.mem_cons_of_mem _ hx)) s1 cc2 hcc2 hfr1 hfd1
    refine ⟨s2, ?_, hri⟩
    simp only [relaxList, heq1]
    exact heq2

theorem astarLoop_unreach (nbrs : Cell → List (Cell × ℚ)) (start goal : Cell)
    (h : Cell → Cell → ℚ)
    (hunreach : ¬ ∃ l q, CWalk nbrs start l goal q) :
    ∀ (fuel : Nat) (s : AState), ReachInv nbrs start s →
      astarLoop nbrs start h goal fuel s = .error "OutOfFuel" ∨
      astarLoop nbrs start h goal fuel s = .error "No Path Found" := by
  intro fuel
  induction fuel with
  | zero =>
    intro s _
    left
    rfl
  | succ fuel ih =>
    intro s hri
    cases hm : minEntry s.frontier with
    | none =>
      right
      simp only [astarLoop, hm]
    | some m =>
      have hmem := minEntry_mem hm
      have hmge : m.2 ≠ goal := by
        intro hg
        apply hunreach
        have := hri.frontier_reach m.1 m.2 hmem
        rw [hg] at this
        exact this
      obtain ⟨vc, hvc⟩ := hri.frontier_dom m.1 m.2 hmem
      have hfr1 : ∀ pr c,
          (pr, c) ∈ (s.frontier.erase m) → ∃ l q, CWalk nbrs start l c q :=
        fun pr c hmem2 => hri.frontier_reach pr c (List.mem_of_mem_erase hmem2)
      have hfd1 : ∀ pr c,
          (pr, c) ∈ (s.frontier.erase m) → ∃ v, alookup s.cost_so_far c = some v :=
        fun pr c hmem2 => hri.frontier_dom pr c (List.mem_of_mem_erase hmem2)
      obtain ⟨s2, heq, hri2⟩ :=
        relaxList_reach nbrs h goal m.2 start (nbrs m.2) (fun x hx => hx)
          (hri.frontier_reach m.1 m.2 hmem)
          { s with frontier := s.frontier.erase m, visited := m.2 :: s.visited }
          vc hvc hfr1 hfd1
      have hstep : astarLoop nbrs start h goal (fuel + 1) s =
          astarLoop nbrs start h goal fuel s2 := by
        simp only [astarLoop, hm]
        rw [if_neg hmge, heq]
      rw [hstep]
      exact ih s2 hri2

/-- C2: when the first goal is unreachable from the start through the grid's
neighbor structure, `astar` never returns a path: every run either is still
searching (out of fuel) or has emptied its frontier and raised the
`No Path Found` error — it never returns a partial or empty path. -/
theorem astar_unreachable_no_path_found
    (g : CozGrid) (h : Cell → Cell → ℚ) (goal : Cell) (rest : List Cell)
    (fuel : Nat)
    (hgoals : g.getGoals = goal :: rest)
    (hunreach : ¬ ∃ l q, CWalk g.getNeighbors g.getStart l goal q) :
    astar g h fuel = .error "OutOfFuel" ∨ astar g h fuel = .error "No Path Found" := by
  have hri : ReachInv g.getNeighbors g.getStart (initState g.getStart) := by
    constructor
    · intro pr c hmem
      simp only [initState] at hmem
      have hc := List.mem_singleton.mp hmem
      rw [Prod.mk.injEq] at hc
      obtain ⟨h1, h2⟩ := hc
      subst h2
      exact ⟨[g.getStart], 0, CWalk.nil _⟩
    · intro pr c hmem
      simp only [initState] at hmem
      have hc := List.mem_singleton.mp hmem
      rw [Prod.mk.injEq] at hc
      obtain ⟨h1, h2⟩ := hc
      subst h2
      exact ⟨0, by simp [initState, alookup]⟩
  have hres := astarLoop_unreach g.getNeighbors g.getStart goal h hunreach fuel
    (initState g.getStart) hri
  rw [astar, hgoals]
  dsimp only
  exact hres

/-- Witness for C2: on the edgeless grid `testGrid2` the goal `(1,0)` is
unreachable and the run with fuel 3 raises exactly `No Path Found`. -/
theorem astar_unreachable_no_path_found_witness :
    astar testGrid2 hZero 3 = .error "No Path Found" := by
  have hunreach : ¬ ∃ l q,
      CWalk testGrid2.getNeighbors testGrid2.getStart l (((1 : Int), (0 : Int)) : Cell) q := by
    rintro ⟨l, q, hw⟩
    cases hw with
    | cons hmem hw2 => simp [testGrid2] at hmem
  rcases astar_unreachable_no_path_found testGrid2 hZero (1, 0) [] 3 rfl hunreach with
    hres | hres
  · have hcomp : astar testGrid2 hZero 3 = .error "No Path Found" := rfl
    rw [hcomp] at hres
    injection hres
  · exact hres

/-! ## Claim C6: cost relaxation discipline -/

theorem relaxOne_discipline (h : Cell → Cell → ℚ) (goal cur : Cell) (s : AState)
    (nb : Cell × ℚ) (s1 : AState) (heq : relaxOne h goal cur s nb = .ok s1) :
    (∀ c v, alookup s.cost_so_far c = some v →
      ∃ v2, alookup s1.cost_so_far c = some v2 ∧ v2 ≤ v) ∧
    (∀ e ∈ s1.frontier, e ∈ s.frontier ∨
      ∃ v2, alookup s1.cost_so_far e.2 = some v2 ∧
        ∀ v, alookup s.cost_so_far e.2 = some v → v2 < v) := by
  obtain ⟨b, w⟩ := nb
  rcases hcc : alookup s.cost_so_far cur with _ | cc
  · rw [relaxOne, hcc] at heq
    cases heq
  · rcases hbv : alookup s.cost_so_far b with _ | old
    · rw [relaxOne] at heq
      rw [hcc] at heq
      dsimp only at heq
      rw [hbv] at heq
      dsimp only at heq
      have hs1 := Except.ok.inj heq
      subst hs1
      constructor
      · intro c v hv
        by_cases hbc : b = c
        · subst hbc
          rw [hbv] at hv
          cases hv
        · refine ⟨v, ?_, le_refl v⟩
          rw [alookup_cons_ne _ _ hbc]
          exact hv
      · intro e he
        dsimp only at he
        rcases List.mem_cons.mp he with heq2 | hold
        · subst heq2
          right
          refine ⟨cc + w, alookup_cons_self _ _ _, ?_⟩
          intro v hv
          rw [hbv] at hv
          cases hv
        · exact Or.inl hold
    · by_cases hlt : cc + w < old
      · rw [relaxOne] at heq
        rw [hcc] at heq
        dsimp only at heq
        rw [hbv] at heq
        dsimp only at heq
        rw [if_pos hlt] at heq
        have hs1 := Except.ok.inj heq
        subst hs1
        constructor
        · intro c v hv
          by_cases hbc : b = c
          · subst hbc
            rw [hbv] at hv
            have hvold := Option.some.inj hv
            subst hvold
            exact ⟨cc + w, alookup_cons_self _ _ _, le_of_lt hlt⟩
          · refine ⟨v, ?_, le_refl v⟩
            rw [alookup_cons_ne _ _ hbc]
            exact hv
        · intro e he
          dsimp only at he
          rcases List.mem_cons.mp he with heq2 | hold
          · subst heq2
            right
            refine ⟨cc + w, alookup_cons_self _ _ _, ?_⟩
            intro v hv
            rw [hbv] at hv
            have hvold := Option.some.inj hv
            subst hvold
            exact hlt
          · exact Or.inl hold
      · rw [relaxOne] at heq
        rw [hcc] at heq
        dsimp only at heq
        rw [hbv] at heq
        dsimp only at heq
        rw [if_neg hlt] at heq
        have hs1 := Except.ok.inj heq
        subst hs1
        exact ⟨fun c v hv => ⟨v, hv, le_refl v⟩, fun e he => Or.inl he⟩

theorem relaxList_discipline (h : Cell → Cell → ℚ) (goal cur : Cell)
    (L : List (Cell × ℚ)) :
    ∀ (s s2 : AState), relaxList h goal cur L s = .ok s2 →
    (∀ c v, alookup s.cost_so_far c = some v →
      ∃ v2, alookup s2.cost_so_far c = some v2 ∧ v2 ≤ v) ∧
    (∀ e ∈ s2.frontier, e ∈ s.frontier ∨
      ∃ v2, alookup s2.cost_so_far e.2 = some v2 ∧
        ∀ v, alookup s.cost_so_far e.2 = some v → v2 < v) := by
  induction L with
  | nil =>
    intro s s2 heq
    rw [relaxList] at heq
    have hs := Except.ok.inj heq
    subst hs
    exact ⟨fun c v hv => ⟨v, hv, le_refl v⟩, fun e he => Or.inl he⟩
  | cons nb rest ih =>
    intro s s2 heq
    rw [relaxList] at heq
    rcases h1 : relaxOne h goal cur s nb with e1 | s1
    · rw [h1] at heq
      cases heq
    · rw [h1] at heq
      dsimp only at heq
      obtain ⟨hmono1, hfnew1⟩ := relaxOne_discipline h goal cur s nb s1 h1
      obtain ⟨hmono2, hfnew2⟩ := ih s1 s2 heq
      constructor
      · intro c v hv
        obtain ⟨v1, hv1, hle1⟩ := hmono1 c v hv
        obtain ⟨v2, hv2, hle2⟩ := hmono2 c v1 hv1
        exact ⟨v2, hv2, le_trans hle2 hle1⟩
      · intro e he
        rcases hfnew2 e he with h1f | ⟨v2, hv2, hstrict2⟩
        · rcases hfnew1 e h1f with h0f | ⟨v1, hv1, hstrict1⟩
          · exact Or.inl h0f
          · obtain ⟨v2, hv2, hle2⟩ := hmono2 e.2 v1 hv1
            exact Or.inr ⟨v2, hv2, fun v hv => lt_of_le_of_lt hle2 (hstrict1 v hv)⟩
        · refine Or.inr ⟨v2, hv2, fun v hv => ?_⟩
          obtain ⟨v1, hv1, hle1⟩ := hmono1 e.2 v hv
          exact lt_of_lt_of_le (hstrict2 v1 hv1) hle1

/-- C6: `cost_so_far[start]` is 0 when the search starts; across any run of
the neighbor-relaxation loop of one `astar` iteration (the only place the
cost map or the frontier are written), a cell's stored cost never increases
and changes only by strictly decreasing, and every entry newly pushed into
the frontier is for a cell whose recorded cumulative cost is strictly lower
than any cost the cell had before. -/
theorem cost_so_far_monotone_discipline :
    (∀ start : Cell, alookup (initState start).cost_so_far start = some 0) ∧
    (∀ (h : Cell → Cell → ℚ) (goal cur : Cell) (L : List (Cell × ℚ)) (s s2 : AState),
      relaxList h goal cur L s = .ok s2 →
      (∀ c v v2, alookup s.cost_so_far c = some v →
        alookup s2.cost_so_far c = some v2 → v2 ≤ v ∧ (v2 ≠ v → v2 < v)) ∧
      (∀ e ∈ s2.frontier, e ∈ s.frontier ∨
        ∃ v2, alookup s2.cost_so_far e.2 = some v2 ∧
          ∀ v, alookup s.cost_so_far e.2 = some v → v2 < v)) := by
  constructor
  · intro start
    simp [initState, alookup]
  · intro h goal cur L s s2 heq
    obtain ⟨hmono, hfnew⟩ := relaxList_discipline h goal cur L s s2 heq
    refine ⟨?_, hfnew⟩
    intro c v v2 hv hv2
    obtain ⟨v3, hv3, hle3⟩ := hmono c v hv
    rw [hv2] at hv3
    have hv23 := Option.some.inj hv3
    subst hv23
    exact ⟨hle3, fun hne => lt_of_le_of_ne hle3 hne⟩

/-- Witness for C6: relaxing the single edge of `testGrid1` from the initial
state pushes the goal cell with a newly recorded (vacuously strictly lower)
cost. -/
theorem cost_so_far_monotone_discipline_witness :
    ((0 : ℚ) + 1 + hZero (1, 0) (1, 0), (((1 : Int), (0 : Int)) : Cell)) ∈
      (initState ((0 : Int), (0 : Int))).frontier ∨
    ∃ v2, alookup relaxDemoState.cost_so_far ((1 : Int), (0 : Int)) = some v2 ∧
      ∀ v, alookup (initState ((0 : Int), (0 : Int))).cost_so_far ((1 : Int), (0 : Int)) =
        some v → v2 < v := by
  have hrun : relaxList hZero ((1 : Int), (0 : Int)) ((0 : Int), (0 : Int))
      [(((1 : Int), (0 : Int)), 1)] (initState ((0 : Int), (0 : Int))) =
      .ok relaxDemoState := rfl
  exact (cost_so_far_monotone_discipline.2 hZero ((1 : Int), (0 : Int))
    ((0 : Int), (0 : Int)) [(((1 : Int), (0 : Int)), 1)]
    (initState ((0 : Int), (0 : Int))) relaxDemoState hrun).2
    (0 + 1 + hZero (1, 0) (1, 0), ((1 : Int), (0 : Int))) (List.mem_cons_self _ _)

/-! ## Claim C7: reconstruction on a cyclic predecessor map -/

theorem reconstructGo_cyc :
    ∀ (fuel : Nat) (acc : List Cell),
      reconstructGo cycCF ((1 : Int), (1 : Int)) fuel ((0 : Int), (0 : Int)) acc = none := by
  intro fuel
  induction fuel with
  | zero =>
    intro acc
    rfl
  | succ fuel ih =>
    intro acc
    rw [reconstructGo, if_neg (by decide)]
    rw [show alookup cycCF ((0 : Int), (0 : Int)) =
      some (some (((0 : Int), (0 : Int)) : Cell)) from rfl]
    exact ih _

/-- C7: on the predecessor map `cycCF`, whose chain from the goal `(0,0)` is
the self-loop `(0,0) → (0,0)` and never reaches the start `(1,1)`,
`reconstruct_path` never terminates: for every loop-iteration bound the
fueled model is still running — the code loops instead of failing fast with
an error, contrary to the claimed `CycleDetected` behavior. -/
theorem reconstruct_path_cycle_loops_forever :
    ∀ fuel : Nat,
      reconstruct_path cycCF ((1 : Int), (1 : Int)) ((0 : Int), (0 : Int)) fuel = none :=
  fun fuel => reconstructGo_cyc fuel []

/-! ## Claim C10: only the first goal is targeted -/

theorem reconstructGo_last (cf : List (Cell × Option Cell)) (start : Cell) :
    ∀ (n : Nat) (current : Cell) (acc : List Cell) (p : List Cell),
      reconstructGo cf start n current acc = some (.ok p) →
      p.getLast? = (current :: acc).getLast? := by
  intro n
  induction n with
  | zero =>
    intro current acc p hcomp
    cases hcomp
  | succ n ih =>
    intro current acc p hcomp
    rw [reconstructGo] at hcomp
    by_cases hcs : current = start
    · rw [if_pos hcs] at hcomp
      have h1 := Option.some.inj hcomp
      have h2 := Except.ok.inj h1
      subst h2
      rw [hcs]
    · rw [if_neg hcs] at hcomp
      cases ho : alookup cf current with
      | none =>
        rw [ho] at hcomp
        simp at hcomp
      | some o =>
        cases o with
        | none =>
          rw [ho] at hcomp
          simp at hcomp
        | some prev =>
          rw [ho] at hcomp
          dsimp only at hcomp
          rw [ih prev (current :: acc) p hcomp, List.getLast?_cons_cons]

theorem astarLoop_ok_last (nbrs : Cell → List (Cell × ℚ)) (start : Cell)
    (h : Cell → Cell → ℚ) (goal : Cell) :
    ∀ (fuel : Nat) (s : AState) (p : List Cell) (sf : AState),
      astarLoop nbrs start h goal fuel s = .ok (p, sf) →
      p.getLast? = some goal := by
  intro fuel
  induction fuel with
  | zero =>
    intro s p sf hok
    simp [astarLoop] at hok
  | succ fuel ih =>
    intro s p sf hok
    simp only [astarLoop] at hok
    cases hm : minEntry s.frontier with
    | none =>
      rw [hm] at hok
      simp at hok
    | some m =>
      rw [hm] at hok
      dsimp only at hok
      by_cases hg : m.2 = goal
      · rw [if_pos hg] at hok
        rcases hr : reconstruct_path s.came_from start goal (s.came_from.length + 1) with
          _ | r
        · rw [hr] at hok
          simp at hok
        · rcases r with e | p2
          · rw [hr] at hok
            simp at hok
          · rw [hr] at hok
            dsimp only at hok
            have h1 := Except.ok.inj hok
            rw [Prod.mk.injEq] at h1
            obtain ⟨hp2, hsf⟩ := h1
            subst hp2
            have hlast := reconstructGo_last s.came_from start
              (s.came_from.length + 1) goal [] p2 hr
            rw [hlast]
            rfl
      · rw [if_neg hg] at hok
        rcases hrel : relaxList h goal m.2 (nbrs m.2)
            { s with frontier := s.frontier.erase m, visited := m.2 :: s.visited } with
          e | s2
        · rw [hrel] at hok
          simp at hok
        · rw [hrel] at hok
          dsimp only at hok
          exact ih s2 p sf hok

/-- C10: `astar` reads only the first entry of the grid's goal list:
replacing the goal list by its first element alone leaves the whole search
result unchanged, and any returned path ends at that first goal — further
goals never terminate the search. -/
theorem astar_targets_first_goal_only
    (g : CozGrid) (h : Cell → Cell → ℚ) (fuel : Nat) (goal : Cell) (rest : List Cell)
    (hgoals : g.getGoals = goal :: rest) :
    astar g h fuel = astar { g with getGoals := [goal] } h fuel ∧
    ∀ p sf, astar g h fuel = .ok (p, sf) → p.getLast? = some goal := by
  constructor
  · rw [astar, astar, hgoals]
  · intro p sf hok
    rw [astar, hgoals] at hok
    dsimp only at hok
    exact astarLoop_ok_last g.getNeighbors g.getStart h goal fuel
      (initState g.getStart) p sf hok

/-- Witness for C10: on `testGrid3`, whose goal list is `[(1,0), (9,9)]`,
the search result equals the one with the second goal dropped, and the
returned path `[(0,0), (1,0)]` ends at the first goal. -/
theorem astar_targets_first_goal_only_witness :
    astar testGrid3 hZero 5 = astar { testGrid3 with getGoals := [((1 : Int), (0 : Int))] } hZero 5 ∧
    ([((0 : Int), (0 : Int)), ((1 : Int), (0 : Int))] : List Cell).getLast? =
      some (((1 : Int), (0 : Int)) : Cell) := by
  have hmain := astar_targets_first_goal_only testGrid3 hZero 5 (1, 0) [(9, 9)] rfl
  refine ⟨hmain.1, ?_⟩
  obtain ⟨sf, hast⟩ :=
    @astarPath_ok testGrid3 hZero 5 [(0, 0), (1, 0)] rfl
  exact hmain.2 _ _ hast

/-! ## Geometric projection and behavior-loop claims -/

theorem rotate_point_zero (x y : ℝ) : rotate_point x y 0 = (x, y) := by
  simp [rotate_point]

theorem add_obstacle_cells_concrete :
    add_obstacle_cells 25 100 100 0 =
      [((2 : ℝ), (2 : ℝ)), (2, 3), (2, 4), (2, 5), (2, 6),
       (3, 2), (3, 3), (3, 4), (3, 5), (3, 6),
       (4, 2), (4, 3), (4, 4), (4, 5), (4, 6),
       (5, 2), (5, 3), (5, 4), (5, 5), (5, 6),
       (6, 2), (6, 3), (6, 4), (6, 5), (6, 6)] := by
  have hrange : pyRange (-50) (50 + 1) 25 = [-50, -25, 0, 25, 50] := by decide
  rw [add_obstacle_cells, hrange]
  simp only [List.flatMap_cons, List.flatMap_nil, List.map_cons, List.map_nil,
    List.append_nil, rotate_point_zero, List.cons_append, List.nil_append]
  norm_num

/-- C8: the obstacle projector (`add_obstacle`), given the fixed footprint
size 50 (`cube_size`), grid scale 25, heading 0° and object position
(100, 100), produces exactly the 5×5 block of grid cells centered at grid
coordinate (4, 4): the cells with both coordinates in {2, 3, 4, 5, 6}. -/
theorem obstacle_projector_block_5x5 :
    add_obstacle_cells 25 100 100 0 =
      [((2 : ℝ), (2 : ℝ)), (2, 3), (2, 4), (2, 5), (2, 6),
       (3, 2), (3, 3), (3, 4), (3, 5), (3, 6),
       (4, 2), (4, 3), (4, 4), (4, 5), (4, 6),
       (5, 2), (5, 3), (5, 4), (5, 5), (5, 6),
       (6, 2), (6, 3), (6, 4), (6, 5), (6, 6)] :=
  add_obstacle_cells_concrete

/-- C4 (code bug): when the goal-marker cube is observed at (100, 100) with
heading 0°, `get_goal` registers the projected goal-marker cell (4, 2) as an
obstacle via `grid.addObstacle` and leaves the grid's goal cells untouched —
the goal is never updated, contrary to the claimed behavior. -/
theorem get_goal_adds_obstacle_and_preserves_goals :
    (get_goal gw4 cube4).goals = gw4.goals ∧
    (get_goal gw4 cube4).obstacles = gw4.obstacles ++ [((4 : ℝ), (2 : ℝ))] := by
  constructor
  · rfl
  · rw [get_goal]
    have hrot : rotate_point 0 (-50) cube4.headingDeg = (0, -50) := by
      rw [show cube4.headingDeg = 0 from rfl]
      exact rotate_point_zero 0 (-50)
    rw [hrot]
    simp only [gw4, cube4]
    norm_num

/-- C3 (code bug): in a FOLLOWING iteration in which no new obstacle is
observed and the path end has not been reached, the loop issues the move
command toward the next waypoint but leaves `path_index` unchanged (0
before, 0 after) instead of advancing it by one. -/
theorem behavior_step_does_not_advance_path_index :
    ∃ st2 cmds x y d, behaviorStep demoSearch none demoSt3 = .cont st2 cmds ∧
      RCmd.goToPose x y d ∈ cmds ∧
      st2.path_index = demoSt3.path_index ∧ demoSt3.path_index = 0 := by
  have hstep : behaviorStep demoSearch none demoSt3 = .cont demoSt3
      [RCmd.sayText "searching",
       RCmd.goToPose 25 25 (Real.arctan (((25 : Int) : ℝ) / ((25 : Int) : ℝ)))] := rfl
  exact ⟨demoSt3, _, 25, 25, _, hstep,
    List.mem_cons_of_mem _ (List.mem_cons_self _ _), rfl, rfl⟩

/-- C5 (code bug): the move command's displacement collapses both axes: on
the waypoint step (0,0) → (1,2) with grid scale 25, the issued command is
`goToPose 25 25 _` — both components are computed from the difference of
the waypoints' first coordinates, instead of x = 25 and y = 2·25 = 50. -/
theorem move_command_collapses_axes :
    ∃ st2 cmds d, behaviorStep demoSearch none demoSt5 = .cont st2 cmds ∧
      RCmd.goToPose 25 25 d ∈ cmds ∧
      ∀ x y d2, RCmd.goToPose x y d2 ∈ cmds → x = y := by
  have hstep : behaviorStep demoSearch none demoSt5 = .cont demoSt5
      [RCmd.sayText "searching",
       RCmd.goToPose 25 25 (Real.arctan (((25 : Int) : ℝ) / ((25 : Int) : ℝ)))] := rfl
  refine ⟨demoSt5, _, _, hstep,
    List.mem_cons_of_mem _ (List.mem_cons_self _ _), ?_⟩
  intro x y d2 hmem
  rcases List.mem_cons.mp hmem with h1 | h2
  · cases h1
  · rcases List.mem_cons.mp h2 with h3 | h4
    · injection h3 with hx hy hd
      rw [hx, hy]
    · simp at h4

/-- C9 (counterexample): an iteration that registers a new obstacle — the
generic cube `c9Cube`, whose 25 footprint cells are appended to the obstacle
set — still issues a move command (`goToPose`) in that same iteration. -/
theorem move_issued_with_new_obstacle_counterexample :
    ∃ st2 cmds x y d, behaviorStep c9Search (some c9Cube) c9St = .cont st2 cmds ∧
      RCmd.goToPose x y d ∈ cmds ∧
      st2.grid.obstacles.length = c9St.grid.obstacles.length + 25 ∧
      st2.path_index = 0 := by
  have hstep : behaviorStep c9Search (some c9Cube) c9St = .cont c9StAfter c9Cmds := rfl
  refine ⟨c9StAfter, c9Cmds, 0, 0, 0, hstep, ?_, ?_, rfl⟩
  · simp [c9Cmds]
  · have hobs : c9StAfter.grid.obstacles = add_obstacle_cells 25 100 100 0 := rfl
    rw [hobs, add_obstacle_cells_concrete]
    rfl

/-- C9 (amended): whenever an iteration of the replan loop registers a newly
observed cube and continues, it first replans — the path is recomputed from
the grid holding the new obstacle and the path index is reset to 0 — and any
move command issued in that same iteration is the step from waypoint 0 to
waypoint 1 of the new path, not of the invalidated one. -/
theorem replan_precedes_move_in_obstacle_iteration
    (search : GridW → List (Int × Int)) (cube : Cube) (st st2 : BehState)
    (cmds : List RCmd)
    (hstep : behaviorStep search (some cube) st = .cont st2 cmds) :
    st2.path_index = 0 ∧
    st2.grid.path = search (registerCube st.grid cube) ∧
    ∀ x y d, RCmd.goToPose x y d ∈ cmds →
      ∃ cur nxt, st2.grid.path[0]? = some cur ∧ st2.grid.path[1]? = some nxt ∧
        x = (nxt.1 - cur.1) * st2.grid.scale ∧ y = (nxt.1 - cur.1) * st2.grid.scale := by
  simp only [behaviorStep] at hstep
  simp only [afterObstacle] at hstep
  dsimp only at hstep
  split at hstep
  · rename_i hlen
    split at hstep
    · cases hstep
    · simp only [moveTail] at hstep
      have hnil : search (registerCube st.grid cube) = [] :=
        List.length_eq_zero.mp (Nat.le_zero.mp hlen)
      rw [hnil] at hstep
      simp only [List.getElem?_nil] at hstep
      split at hstep <;> cases hstep
  · simp only [moveTail] at hstep
    rcases h0 : (search (registerCube st.grid cube))[0]? with _ | cur
    · rw [h0] at hstep
      simp at hstep
    · rcases h1 : (search (registerCube st.grid cube))[1]? with _ | nxt
      · rw [h0, h1] at hstep
        simp at hstep
      · rw [h0, h1] at hstep
        dsimp only at hstep
        injection hstep with hst hcmds
        subst hst
        subst hcmds
        refine ⟨rfl, rfl, ?_⟩
        intro x y d hmem
        rcases List.mem_append.mp hmem with hin | hin
        · exfalso
          by_cases hid : cube.cube_id = LightCube1Id
          · simp [hid] at hin
          · simp [hid] at hin
        · rw [List.mem_singleton] at hin
          injection hin with hx hy hd
          subst hx
          subst hy
          exact ⟨cur, nxt, h0, h1, rfl, rfl⟩

/-- Witness for the amended C9: in the `c9Cube` iteration, the continuation
state has path index 0 and carries the freshly replanned path. -/
theorem replan_precedes_move_in_obstacle_iteration_witness :
    c9StAfter.path_index = 0 ∧
    c9StAfter.grid.path = c9Search (registerCube c9St.grid c9Cube) := by
  have hstep : behaviorStep c9Search (some c9Cube) c9St = .cont c9StAfter c9Cmds := rfl
  have hres := replan_precedes_move_in_obstacle_iteration c9Search c9Cube c9St
    c9StAfter c9Cmds hstep
  exact ⟨hres.1, hres.2.1⟩
